import Mathlib

/-!
Shallow embedding of `color_palette.py` (teejaydub/color-palette).

Python numbers (ints and floats) are modelled by exact rationals `ℚ`:
every Python float is a dyadic rational, and the specification reasons in
exact arithmetic, so `ℚ` covers all actual float inputs exactly.  The few
places where the source calls `math.sqrt` on a rational (the `rms`
distance) are modelled with `Real.sqrt`.

Fallible Python code (`ValueError` from `math.log` / `int(..., 16)`,
`IndexError` from indexing an empty string, `TypeError` from feeding a
tuple into arithmetic) is modelled with `Option`: `none` means the call
raises.
-/

namespace ColorPalette

/-- Python `a % b` on numbers: `a - b * floor (a / b)` (result has the sign
of `b`; here always used with `b > 0`). -/
def pymod (a b : ℚ) : ℚ := a - b * (⌊a / b⌋ : ℚ)

/-- Python slice `s[a:b]` on a list (non-negative indices, clamping). -/
def pySlice (s : List Char) (a b : ℕ) : List Char := (s.take b).drop a

-- Module constants, from the top of color_palette.py.

def HUE_STEPS : ℕ := 6

def HUE_STEP : ℚ := 1 / (HUE_STEPS : ℚ)

def MIN_VALUE : ℚ := 1 / 2

def MAX_VALUE : ℚ := 9 / 10

def MIN_SATURATION : ℚ := 1 / 5

def MAX_SATURATION : ℚ := 1

/-- Source function `explore_range(min_val, max_val, start, i)`.
The index is an arbitrary Python int (`ℤ`); for `i ≠ 0` the source
computes `math.ceil(math.log(i + 1, 2))`, which raises `ValueError`
(modelled `none`) when `i + 1 ≤ 0`, and in exact arithmetic equals
`Nat.clog 2 (i + 1)` otherwise. -/
def explore_range (min_val max_val start : ℚ) (i : ℤ) : Option ℚ :=
  if i = 0 then
    some start
  else if i + 1 ≤ 0 then
    none
  else
    let n := i.toNat
    let level := Nat.clog 2 (n + 1)
    let denominator : ℚ := 2 ^ level
    let prev_level := level - 1
    let prev_denominator : ℕ := 2 ^ prev_level
    let level_i : ℕ := n - prev_denominator
    let odd_i : ℕ := 1 + 2 * level_i
    let position : ℚ := (odd_i : ℚ) / denominator
    let map_range := max_val - min_val
    let mapped_start := start - min_val
    let mapped_result := pymod (mapped_start + position * map_range) map_range
    some (mapped_result + min_val)

/-- The integer grid pair `(x, y)` computed by `explore_2d` (source lines
162-174); it depends only on the step index. -/
def explore_2d_grid (i : ℕ) : ℕ × ℕ :=
  let dimension := Nat.sqrt i + 1
  let last_dimension := dimension - 1
  let last_square := last_dimension * last_dimension
  let i_level := i - last_square
  if i_level < last_dimension then
    (i_level, last_dimension)
  else
    (last_dimension, 2 * last_dimension - i_level)

/-- Source function `explore_2d(min_x, max_x, min_y, max_y, start_x,
start_y, i)`.  Here `math.sqrt(i)` raises for `i < 0` (modelled `none`).
The returned pair is exactly what line 175 of the source returns: the
first component is `explore_range(min_x, max_x, start_x, x)`, while the
second component is the raw 4-tuple `(min_y, max_y, start_y, y)` — the
source never applies `explore_range` to the y axis. -/
def explore_2d (min_x max_x min_y max_y start_x start_y : ℚ) (i : ℤ) :
    Option (ℚ × (ℚ × ℚ × ℚ × ℕ)) :=
  if i < 0 then
    none
  else
    let xy := explore_2d_grid i.toNat
    (explore_range min_x max_x start_x (xy.1 : ℤ)).map
      (fun ex => (ex, (min_y, max_y, start_y, xy.2)))

/-- The `Color` class: the single canonical stored form is the RGB triple
`_r`, `_g`, `_b`.  `set_rgb_bytes` stores whatever numbers it is handed,
so the components are arbitrary numbers (`ℚ`), not bounded bytes. -/
structure Color where
  _r : ℚ
  _g : ℚ
  _b : ℚ
deriving DecidableEq

/-- Method `set_rgb_bytes`: stores the triple's components as given; the
previous state is replaced wholesale. -/
def Color.set_rgb_bytes (_c : Color) (rgb_bytes : ℚ × ℚ × ℚ) : Color :=
  { _r := rgb_bytes.1, _g := rgb_bytes.2.1, _b := rgb_bytes.2.2 }

/-- Method `get_rgb_bytes`. -/
def Color.get_rgb_bytes (c : Color) : ℚ × ℚ × ℚ := (c._r, c._g, c._b)

/-- Constructing `Color(x)` from a non-string `x` (the `else` branch of
`__init__`): delegates to `set_rgb_bytes`. -/
def color_from_triple (x : ℚ × ℚ × ℚ) : Color :=
  Color.set_rgb_bytes { _r := 0, _g := 0, _b := 0 } x

/-- The numeric value of a hexadecimal digit character (`0`-`9`, `a`-`f`,
`A`-`F`), if it is one; the ranges are written on character codes. -/
def hexDigitVal (ch : Char) : Option ℕ :=
  if 48 ≤ ch.toNat ∧ ch.toNat ≤ 57 then some (ch.toNat - 48)
  else if 97 ≤ ch.toNat ∧ ch.toNat ≤ 102 then some (ch.toNat - 97 + 10)
  else if 65 ≤ ch.toNat ∧ ch.toNat ≤ 70 then some (ch.toNat - 65 + 10)
  else none

/-- The six characters Python 2 `int(s, 16)` strips as whitespace. -/
def isPySpace (ch : Char) : Bool :=
  ch = ' ' ∨ ch = '\t' ∨ ch = '\n' ∨ ch = '\r' ∨ ch = '\x0b' ∨ ch = '\x0c'

/-- Python 2 `int(s, 16)`: optional surrounding whitespace, optional sign,
optional `0x`/`0X` prefix, then at least one hex digit; anything else
raises `ValueError` (modelled `none`). -/
def pyIntHex (s : List Char) : Option ℤ :=
  let s1 := s.dropWhile isPySpace
  let sign : ℤ := if s1.head? = some '-' then -1 else 1
  let s2 := if s1.head? = some '-' ∨ s1.head? = some '+' then s1.drop 1 else s1
  let s3 :=
    if s2.head? = some '0' ∧ ((s2.drop 1).head? = some 'x' ∨ (s2.drop 1).head? = some 'X')
    then s2.drop 2 else s2
  let digits := s3.takeWhile fun ch => (hexDigitVal ch).isSome
  let rest := s3.dropWhile fun ch => (hexDigitVal ch).isSome
  if digits ≠ [] ∧ rest.all isPySpace then
    some (sign * digits.foldl (fun acc ch => 16 * acc + (((hexDigitVal ch).getD 0 : ℕ) : ℤ)) 0)
  else
    none

/-- Method `set_html_hex(h)`: here `h[0]` raises `IndexError` on the empty
string; otherwise the optional leading `#` is stripped and the three
slices `s[0:2]`, `s[2:4]`, `s[4:6]` are parsed with `int(-, 16)`. -/
def Color.set_html_hex (_c : Color) (h : List Char) : Option Color :=
  match h with
  | [] => none
  | ch :: rest =>
    let s := if ch = '#' then rest else ch :: rest
    match pyIntHex (pySlice s 0 2), pyIntHex (pySlice s 2 4), pyIntHex (pySlice s 4 6) with
    | some r, some g, some b => some { _r := (r : ℚ), _g := (g : ℚ), _b := (b : ℚ) }
    | _, _, _ => none

/-- Library function `colorsys.rgb_to_hsv(r, g, b)` (Python 2), in exact
arithmetic.  (On byte-derived colors `maxc` and `maxc - minc` are only
divided when nonzero; `ℚ` division by zero yielding 0 is never hit by the
colors this development evaluates.) -/
def rgb_to_hsv (r g b : ℚ) : ℚ × ℚ × ℚ :=
  let maxc := max r (max g b)
  let minc := min r (min g b)
  let v := maxc
  if minc = maxc then
    (0, 0, v)
  else
    let s := (maxc - minc) / maxc
    let rc := (maxc - r) / (maxc - minc)
    let gc := (maxc - g) / (maxc - minc)
    let bc := (maxc - b) / (maxc - minc)
    let h := if r = maxc then bc - gc else if g = maxc then rc - bc else gc - rc
    (pymod (h / 6) 1, s, v)

/-- Method `get_hsv`: converts the stored bytes through `colorsys`. -/
def Color.get_hsv (c : Color) : ℚ × ℚ × ℚ :=
  rgb_to_hsv (c._r / 255) (c._g / 255) (c._b / 255)

/-- The sum the source's `rms` puts under the square root: the weighted
componentwise differences of the two triples, summed — the differences
are never squared. -/
def rms_sum (a b : ℚ × ℚ × ℚ) (weights : Option (ℚ × ℚ × ℚ)) : ℚ :=
  let d := (a.1 - b.1, a.2.1 - b.2.1, a.2.2 - b.2.2)
  match weights with
  | none => d.1 + d.2.1 + d.2.2
  | some w => d.1 * w.1 + d.2.1 * w.2.1 + d.2.2 * w.2.2

/-- Source function `rms(a, b, weights)`: `math.sqrt` of the summed
weighted differences when that sum is positive, else `0`. -/
noncomputable def rms (a b : ℚ × ℚ × ℚ) (weights : Option (ℚ × ℚ × ℚ)) : ℝ :=
  let x := rms_sum a b weights
  if 0 < x then Real.sqrt (x : ℝ) else 0

/-- Source function `color_distance(a, b)`: `rms` of the two HSV
triples with weights `(1.0, 0.5, 0.8)`. -/
noncomputable def color_distance (a b : Color) : ℝ :=
  rms a.get_hsv b.get_hsv (some (1, 1 / 2, 4 / 5))

/-- Source function `get_color(start_color, i)`.  Here `i % HUE_STEPS`
and `i / HUE_STEPS` are Python 2 int operations (`Int.emod` / floor
division `Int.fdiv`).  If `explore_range` raises, the error propagates.
Otherwise line 188 binds `v` to the second component of `explore_2d`,
which is the raw 4-tuple `(min_y, max_y, start_y, y)`; line 190's
`set_hsv` then raises `TypeError` inside `colorsys.hsv_to_rgb`
(tuple-valued `v` in float arithmetic, or `round` of a tuple when
`s == 0`), so the call never returns a color. -/
def get_color (start_color : Color) (i : ℤ) : Option Color :=
  let hsv := start_color.get_hsv
  let hstep := i % (HUE_STEPS : ℤ)
  let svstep := Int.fdiv i (HUE_STEPS : ℤ)
  match explore_range 0 HUE_STEP 0 svstep with
  | none => none
  | some e =>
    let _h := pymod (hsv.1 + (hstep : ℚ) * HUE_STEP + e) 1
    match explore_2d MIN_SATURATION MAX_SATURATION MIN_VALUE MAX_VALUE hsv.2.1 hsv.2.2 svstep with
    | none => none
    | some _sv => none

/-- Python `range(n)` as a list of ints (empty for `n ≤ 0`). -/
def pyrange (n : ℤ) : List ℤ := (List.range n.toNat).map Int.ofNat

/-- Source function `get_palette(start_color, length)`: the list comprehension
`[get_color(start_color, i) for i in range(length)]`; an exception from
any element propagates. -/
def get_palette (start_color : Color) (len : ℤ) : Option (List Color) :=
  (pyrange len).mapM (get_color start_color)

-- Remaining definitions: the spec-side hex pattern, proof-side names for
-- the quantities inside explore_range, and two concrete colors.

/-- The spec's hex-string pattern, from its words: an optional leading
`#` followed by exactly six hexadecimal digits. -/
def matchesHexPattern (s : List Char) : Bool :=
  let t := if s.head? = some '#' then s.drop 1 else s
  (t.length == 6) && t.all fun ch => (hexDigitVal ch).isSome

/-- The `level` computed inside `explore_range` for index `n ≥ 1`. -/
def erLevel (n : ℕ) : ℕ := Nat.clog 2 (n + 1)

/-- The `odd_i` numerator computed inside `explore_range`. -/
def erOdd (n : ℕ) : ℕ := 1 + 2 * (n - 2 ^ (erLevel n - 1))

/-- The `position` fraction computed inside `explore_range`. -/
def erPos (n : ℕ) : ℚ := (erOdd n : ℚ) / 2 ^ erLevel n

/-- The color with RGB bytes `(0, 0, 0)`. -/
def colorBlack : Color := { _r := 0, _g := 0, _b := 0 }

/-- The color with RGB bytes `(255, 255, 255)`. -/
def colorWhite : Color := { _r := 255, _g := 255, _b := 255 }

-- Helper lemmas.

/-- Evaluation principle for `Nat.sqrt` at a known answer. -/
theorem sqrt_eq_of {n k : ℕ} (h1 : k * k ≤ n) (h2 : n < (k + 1) * (k + 1)) :
    Nat.sqrt n = k := by
  have ha : k ≤ Nat.sqrt n := Nat.le_sqrt.mpr h1
  have hb : Nat.sqrt n < k + 1 := Nat.sqrt_lt.mpr h2
  omega

/-- Evaluation principle for `Nat.clog 2` at a known answer. -/
theorem clog2_eq {n l : ℕ} (hl : 1 ≤ l) (h1 : n ≤ 2 ^ l) (h2 : 2 ^ (l - 1) < n) :
    Nat.clog 2 n = l := by
  have ha : Nat.clog 2 n ≤ l := (Nat.le_pow_iff_clog_le one_lt_two).mp h1
  have hb : l - 1 < Nat.clog 2 n := (Nat.pow_lt_iff_lt_clog one_lt_two).mp h2
  omega

theorem pymod_nonneg (a : ℚ) {b : ℚ} (hb : 0 < b) : 0 ≤ pymod a b := by
  have h1 : (⌊a / b⌋ : ℚ) ≤ a / b := Int.floor_le _
  have h2 : b * (⌊a / b⌋ : ℚ) ≤ b * (a / b) := by
    exact mul_le_mul_of_nonneg_left h1 (le_of_lt hb)
  have h3 : b * (a / b) = a := mul_div_cancel₀ a (ne_of_gt hb)
  unfold pymod
  linarith

theorem pymod_lt (a : ℚ) {b : ℚ} (hb : 0 < b) : pymod a b < b := by
  have h1 : a / b - 1 < (⌊a / b⌋ : ℚ) := Int.sub_one_lt_floor _
  have h2 : b * (a / b - 1) < b * (⌊a / b⌋ : ℚ) := by
    exact (mul_lt_mul_left hb).mpr h1
  have h3 : b * (a / b) = a := mul_div_cancel₀ a (ne_of_gt hb)
  unfold pymod
  have h4 : b * (a / b - 1) = a - b := by rw [mul_sub, h3]; ring
  linarith

theorem pymod_eq_self {a b : ℚ} (h0 : 0 ≤ a) (h1 : a < b) : pymod a b = a := by
  have hb : 0 < b := lt_of_le_of_lt h0 h1
  have hfl : ⌊a / b⌋ = 0 := by
    rw [Int.floor_eq_zero_iff]
    constructor
    · exact div_nonneg h0 (le_of_lt hb)
    · exact (div_lt_one hb).mpr h1
  unfold pymod
  rw [hfl]
  push_cast
  ring

theorem pymod_congr_int {a a' b : ℚ} (h : pymod a b = pymod a' b) :
    ∃ k : ℤ, a - a' = (k : ℚ) * b := by
  refine ⟨⌊a / b⌋ - ⌊a' / b⌋, ?_⟩
  unfold pymod at h
  push_cast
  linarith

theorem erLevel_bounds {n : ℕ} (hn : 1 ≤ n) :
    1 ≤ erLevel n ∧ 2 ^ (erLevel n - 1) ≤ n ∧ n < 2 ^ erLevel n := by
  have h1 : 0 < Nat.clog 2 (n + 1) := Nat.clog_pos one_lt_two (by omega)
  have h2 : n + 1 ≤ 2 ^ Nat.clog 2 (n + 1) := Nat.le_pow_clog one_lt_two _
  have h3 : 2 ^ (Nat.clog 2 (n + 1) - 1) < n + 1 := by
    have h := Nat.pow_pred_clog_lt_self (b := 2) one_lt_two (x := n + 1) (by omega)
    simpa [Nat.pred_eq_sub_one] using h
  unfold erLevel
  exact ⟨h1, by omega, by omega⟩

theorem erOdd_lt {n : ℕ} (hn : 1 ≤ n) : erOdd n < 2 ^ erLevel n := by
  obtain ⟨h1, h2, h3⟩ := erLevel_bounds hn
  have h4 : 2 ^ erLevel n = 2 * 2 ^ (erLevel n - 1) := by
    rw [← pow_succ']
    congr 1
    omega
  unfold erOdd
  omega

theorem erPos_pos (n : ℕ) : 0 < erPos n := by
  unfold erPos
  apply div_pos
  · have : 1 ≤ erOdd n := by unfold erOdd; omega
    exact_mod_cast this
  · positivity

theorem erPos_lt_one {n : ℕ} (hn : 1 ≤ n) : erPos n < 1 := by
  unfold erPos
  rw [div_lt_one (by positivity)]
  have h := erOdd_lt hn
  calc ((erOdd n : ℚ)) < ((2 ^ erLevel n : ℕ) : ℚ) := by exact_mod_cast h
  _ = 2 ^ erLevel n := by push_cast; ring

theorem odd_mul_two_pow_inj {a b : ℕ} (ha : a % 2 = 1) (hb : b % 2 = 1) :
    ∀ {k l : ℕ}, a * 2 ^ k = b * 2 ^ l → k = l ∧ a = b := by
  intro k
  induction k with
  | zero =>
    intro l h
    cases l with
    | zero => simpa using h
    | succ l' =>
      exfalso
      rw [pow_succ, ← mul_assoc] at h
      simp only [pow_zero, mul_one] at h
      omega
  | succ k' ih =>
    intro l h
    cases l with
    | zero =>
      exfalso
      rw [pow_succ, ← mul_assoc] at h
      simp only [pow_zero, mul_one] at h
      omega
    | succ l' =>
      rw [pow_succ, pow_succ, ← mul_assoc, ← mul_assoc] at h
      have h2 := Nat.eq_of_mul_eq_mul_right (by norm_num : 0 < 2) h
      obtain ⟨hk, hab⟩ := ih h2
      exact ⟨by omega, hab⟩

theorem erPos_inj {n m : ℕ} (hn : 1 ≤ n) (hm : 1 ≤ m) (h : erPos n = erPos m) :
    n = m := by
  unfold erPos at h
  rw [div_eq_div_iff (by positivity) (by positivity)] at h
  have hh : erOdd n * 2 ^ erLevel m = erOdd m * 2 ^ erLevel n := by
    exact_mod_cast h
  have hodd_n : erOdd n % 2 = 1 := by unfold erOdd; omega
  have hodd_m : erOdd m % 2 = 1 := by unfold erOdd; omega
  obtain ⟨hl, ho⟩ := odd_mul_two_pow_inj hodd_n hodd_m hh
  obtain ⟨_, h2n, h3n⟩ := erLevel_bounds hn
  obtain ⟨_, h2m, h3m⟩ := erLevel_bounds hm
  have hA : (2 : ℕ) ^ (erLevel n - 1) = 2 ^ (erLevel m - 1) := by rw [hl]
  unfold erOdd at ho
  omega

/-- For a non-negative index, `explore_range` returns `start` for index 0
and otherwise maps the dyadic `position` onto the interval through the
Python modulo. -/
theorem explore_range_eq_pymod {mn mx st : ℚ} (hs1 : mn ≤ st) (hs2 : st < mx)
    (k : ℤ) (hk : 0 ≤ k) :
    explore_range mn mx st k =
      some (pymod ((st - mn) + (if k = 0 then 0 else erPos k.toNat) * (mx - mn)) (mx - mn)
              + mn) := by
  by_cases h0 : k = 0
  · subst h0
    have h1 : explore_range mn mx st 0 = some st := by simp [explore_range]
    rw [h1, if_pos rfl, zero_mul, add_zero,
      pymod_eq_self (by linarith) (by linarith)]
    norm_num
  · unfold explore_range erPos erOdd erLevel
    rw [if_neg h0, if_neg (by omega), if_neg h0]

/-- C5: for every pair of bounds with min < max, every start value in
[min, max), and every non-negative index i, the result of
`explore_range(min, max, start, i)` lies in the half-open interval
[min, max). -/
theorem explore_range_within_bounds (mn mx st : ℚ) (i : ℤ)
    (hlt : mn < mx) (hs1 : mn ≤ st) (hs2 : st < mx) (hi : 0 ≤ i) :
    ∃ r, explore_range mn mx st i = some r ∧ mn ≤ r ∧ r < mx := by
  have hR : (0 : ℚ) < mx - mn := by linarith
  refine ⟨_, explore_range_eq_pymod hs1 hs2 i hi, ?_, ?_⟩
  · have h := pymod_nonneg ((st - mn) + (if i = 0 then 0 else erPos i.toNat) * (mx - mn)) hR
    linarith
  · have h := pymod_lt ((st - mn) + (if i = 0 then 0 else erPos i.toNat) * (mx - mn)) hR
    linarith

/-- C5 witness: a concrete instance of the bounds theorem. -/
theorem explore_range_within_bounds_witness :
    ∃ r, explore_range 0 1 0 3 = some r ∧ 0 ≤ r ∧ r < 1 :=
  explore_range_within_bounds 0 1 0 3 (by norm_num) (by norm_num) (by norm_num)
    (by norm_num)

/-- C3: with min < max and start in [min, max), distinct non-negative
indices give distinct results (in exact arithmetic the sequence never
repeats). -/
theorem explore_range_no_repeat (mn mx st : ℚ) (i j : ℤ)
    (hlt : mn < mx) (hs1 : mn ≤ st) (hs2 : st < mx)
    (hi : 0 ≤ i) (hj : 0 ≤ j) (hij : i ≠ j) :
    explore_range mn mx st i ≠ explore_range mn mx st j := by
  have hR : (0 : ℚ) < mx - mn := by linarith
  intro heq
  rw [explore_range_eq_pymod hs1 hs2 i hi, explore_range_eq_pymod hs1 hs2 j hj,
    Option.some.injEq] at heq
  set p_i := (if i = 0 then (0 : ℚ) else erPos i.toNat) with hp_i
  set p_j := (if j = 0 then (0 : ℚ) else erPos j.toNat) with hp_j
  have heq2 : pymod ((st - mn) + p_i * (mx - mn)) (mx - mn)
      = pymod ((st - mn) + p_j * (mx - mn)) (mx - mn) := add_right_cancel heq
  obtain ⟨k, hk⟩ := pymod_congr_int heq2
  have hk2 : (p_i - p_j) * (mx - mn) = (k : ℚ) * (mx - mn) := by
    ring_nf
    ring_nf at hk
    linarith
  have hpij : p_i - p_j = (k : ℚ) := mul_right_cancel₀ (ne_of_gt hR) hk2
  have hbi : 0 ≤ p_i ∧ p_i < 1 := by
    rw [hp_i]
    split_ifs with h
    · norm_num
    · have h1 : 1 ≤ i.toNat := by omega
      exact ⟨le_of_lt (erPos_pos _), erPos_lt_one h1⟩
  have hbj : 0 ≤ p_j ∧ p_j < 1 := by
    rw [hp_j]
    split_ifs with h
    · norm_num
    · have h1 : 1 ≤ j.toNat := by omega
      exact ⟨le_of_lt (erPos_pos _), erPos_lt_one h1⟩
  have hk0 : k = 0 := by
    have h1 : (-1 : ℚ) < (k : ℚ) := by rw [← hpij]; linarith [hbi.1, hbi.2, hbj.1, hbj.2]
    have h2 : ((k : ℚ)) < 1 := by rw [← hpij]; linarith [hbi.1, hbi.2, hbj.1, hbj.2]
    have h3 : (-1 : ℤ) < k ∧ k < 1 := by
      constructor
      · exact_mod_cast h1
      · exact_mod_cast h2
    omega
  have hpp : p_i = p_j := by
    rw [hk0] at hpij
    push_cast at hpij
    linarith
  by_cases h0i : i = 0 <;> by_cases h0j : j = 0
  · exact hij (h0i.trans h0j.symm)
  · rw [hp_i, hp_j, if_pos h0i, if_neg h0j] at hpp
    have h1 : 1 ≤ j.toNat := by omega
    exact absurd hpp.symm (ne_of_gt (erPos_pos _))
  · rw [hp_i, hp_j, if_neg h0i, if_pos h0j] at hpp
    have h1 : 1 ≤ i.toNat := by omega
    exact absurd hpp (ne_of_gt (erPos_pos _))
  · rw [hp_i, hp_j, if_neg h0i, if_neg h0j] at hpp
    have h1 : 1 ≤ i.toNat := by omega
    have h2 : 1 ≤ j.toNat := by omega
    have h3 := erPos_inj h1 h2 hpp
    exact hij (by omega)

/-- C3 witness: a concrete instance of the no-repeat theorem. -/
theorem explore_range_no_repeat_witness :
    explore_range 0 1 0 1 ≠ explore_range 0 1 0 2 :=
  explore_range_no_repeat 0 1 0 1 2 (by norm_num) (by norm_num) (by norm_num)
    (by norm_num) (by norm_num) (by norm_num)

/-- Rewriting `explore_2d_grid` directly in terms of `Nat.sqrt`. -/
theorem explore_2d_grid_eq (i : ℕ) :
    explore_2d_grid i =
      if i - Nat.sqrt i * Nat.sqrt i < Nat.sqrt i then
        (i - Nat.sqrt i * Nat.sqrt i, Nat.sqrt i)
      else
        (Nat.sqrt i, 2 * Nat.sqrt i - (i - Nat.sqrt i * Nat.sqrt i)) := by
  unfold explore_2d_grid
  simp only [Nat.add_sub_cancel]

theorem sqrt_sq_add_le (i : ℕ) : i < Nat.sqrt i * Nat.sqrt i + 2 * Nat.sqrt i + 1 := by
  have h := Nat.lt_succ_sqrt i
  have hexp : Nat.succ (Nat.sqrt i) * Nat.succ (Nat.sqrt i)
      = Nat.sqrt i * Nat.sqrt i + 2 * Nat.sqrt i + 1 := by
    simp only [Nat.succ_eq_add_one]
    ring
  omega

theorem grid_on_ring (i : ℕ) :
    max (explore_2d_grid i).1 (explore_2d_grid i).2 = Nat.sqrt i := by
  rw [explore_2d_grid_eq]
  have h1 : Nat.sqrt i * Nat.sqrt i ≤ i := Nat.sqrt_le i
  have h2 := sqrt_sq_add_le i
  split_ifs with h
  · exact Nat.max_eq_right (by omega)
  · exact Nat.max_eq_left (by omega)

theorem grid_inj (i j : ℕ) (h : explore_2d_grid i = explore_2d_grid j) : i = j := by
  have hk : Nat.sqrt i = Nat.sqrt j := by
    rw [← grid_on_ring i, ← grid_on_ring j, h]
  have hsi1 : Nat.sqrt i * Nat.sqrt i ≤ i := Nat.sqrt_le i
  have hsi2 := sqrt_sq_add_le i
  have hsj1 : Nat.sqrt j * Nat.sqrt j ≤ j := Nat.sqrt_le j
  have hsj2 := sqrt_sq_add_le j
  rw [explore_2d_grid_eq, explore_2d_grid_eq, hk] at h
  rw [hk] at hsi1 hsi2
  split_ifs at h with h1 h2 h2 <;> simp only [Prod.mk.injEq] at h <;> omega

theorem grid_cover (k x y : ℕ) (hmax : max x y = k) :
    ∃ i, k * k ≤ i ∧ i < (k + 1) * (k + 1) ∧ explore_2d_grid i = (x, y) := by
  have hexp : (k + 1) * (k + 1) = k * k + 2 * k + 1 := by ring
  have hx : x ≤ k := hmax ▸ le_max_left x y
  have hy' : y ≤ k := hmax ▸ le_max_right x y
  by_cases hxk : x < k
  · have hy : y = k := by
      rcases max_choice x y with h | h <;> omega
    refine ⟨k * k + x, by omega, by omega, ?_⟩
    rw [explore_2d_grid_eq]
    have hs : Nat.sqrt (k * k + x) = k := sqrt_eq_of (by omega) (by omega)
    rw [hs, if_pos (by omega)]
    have h1 : k * k + x - k * k = x := by omega
    rw [h1, hy]
  · have hxk' : x = k := by omega
    refine ⟨k * k + (2 * k - y), by omega, by omega, ?_⟩
    rw [explore_2d_grid_eq]
    have hs : Nat.sqrt (k * k + (2 * k - y)) = k := sqrt_eq_of (by omega) (by omega)
    rw [hs, if_neg (by omega)]
    have h1 : k * k + (2 * k - y) - k * k = 2 * k - y := by omega
    have h2 : 2 * k - (2 * k - y) = y := by omega
    rw [h1, h2, hxk']

/-- C4: with k = floor(sqrt(i)), the integer grid pair computed by
`explore_2d` lies on the boundary ring of the square 0..k x 0..k (its
larger coordinate is exactly k), distinct indices give distinct pairs,
and the indices of ring k (those in [k^2, (k+1)^2)) cover every new ring
cell — every (x, y) with max x y = k — exactly once. -/
theorem explore_2d_grid_ring_exact :
    (∀ i : ℕ, max (explore_2d_grid i).1 (explore_2d_grid i).2 = Nat.sqrt i) ∧
    (∀ i j : ℕ, explore_2d_grid i = explore_2d_grid j → i = j) ∧
    (∀ k x y : ℕ, max x y = k →
      ∃ i, k * k ≤ i ∧ i < (k + 1) * (k + 1) ∧ explore_2d_grid i = (x, y)) :=
  ⟨grid_on_ring, grid_inj, grid_cover⟩

/-- C4 witness: concrete instances of the ring theorem. -/
theorem explore_2d_grid_ring_exact_witness :
    max (explore_2d_grid 5).1 (explore_2d_grid 5).2 = Nat.sqrt 5 ∧
    ∃ i, 2 * 2 ≤ i ∧ i < (2 + 1) * (2 + 1) ∧ explore_2d_grid i = (2, 1) :=
  ⟨explore_2d_grid_ring_exact.1 5,
   explore_2d_grid_ring_exact.2.2 2 2 1 (by norm_num)⟩

/-- C1 (code bug): at a concrete input, the second component of the pair
returned by `explore_2d` is the raw argument 4-tuple
`(min_y, max_y, start_y, y)` — not the number
`explore_range(min_y, max_y, start_y, y)` (which here would be 1/4, since
the grid pair at index 5 is (1, 2)); only the x component goes through
`explore_range`. -/
theorem explore_2d_y_not_explored :
    explore_2d 0 1 0 1 0 0 5 = some (1 / 2, (0, 1, 0, 2)) ∧
    explore_range 0 1 0 2 = some (1 / 4) := by
  constructor
  · have hs : Nat.sqrt 5 = 2 := sqrt_eq_of (by norm_num) (by norm_num)
    have hg : explore_2d_grid 5 = (1, 2) := by
      unfold explore_2d_grid
      rw [hs]
      norm_num
    have hc : Nat.clog 2 2 = 1 := clog2_eq (by norm_num) (by norm_num) (by norm_num)
    have ht : (5 : ℤ).toNat = 5 := rfl
    have he : explore_range 0 1 0 ((1 : ℕ) : ℤ) = some (1 / 2) := by
      have ht1 : ((1 : ℕ) : ℤ).toNat = 1 := rfl
      rw [explore_range]
      norm_num [ht1, hc, pymod]
    rw [explore_2d, if_neg (by norm_num), ht, hg]
    simp only [he, Option.map_some']
  · have hc : Nat.clog 2 3 = 2 := clog2_eq (by norm_num) (by norm_num) (by norm_num)
    have ht : (2 : ℤ).toNat = 2 := rfl
    rw [explore_range]
    norm_num [ht, hc, pymod]

/-- C2 (code bug): for every seed color, `get_color(seed, 0)` does not
return the seed — it raises (`none`), because the `v` unpacked from
`explore_2d` is the raw 4-tuple and `set_hsv` cannot process it. -/
theorem get_color_zero_raises (c : Color) : get_color c 0 = none := rfl

/-- C2 witness: the concrete seed `#EACE8C` (bytes 234, 206, 140). -/
theorem get_color_zero_raises_witness :
    get_color { _r := 234, _g := 206, _b := 140 } 0 = none :=
  get_color_zero_raises { _r := 234, _g := 206, _b := 140 }

/-- C8 (amended): neither function validates negative inputs.  For every
negative index, `get_color` raises from inside `explore_range` (math
domain error on `log(svstep + 1)`), and for every negative length,
`get_palette` silently returns the empty list because `range(n)` is
empty. -/
theorem negative_index_not_validated (c : Color) (i n : ℤ)
    (hi : i < 0) (hn : n < 0) :
    get_color c i = none ∧ get_palette c n = some [] := by
  constructor
  · have hsv : Int.fdiv i (HUE_STEPS : ℤ) < 0 := by
      have h6 : (0 : ℤ) < (HUE_STEPS : ℤ) := by norm_num [HUE_STEPS]
      exact Int.fdiv_neg' hi h6
    have her : explore_range 0 HUE_STEP 0 (Int.fdiv i (HUE_STEPS : ℤ)) = none := by
      rw [explore_range, if_neg (by omega), if_pos (by omega)]
    simp only [get_color, her]
  · rw [get_palette, pyrange, Int.toNat_of_nonpos (le_of_lt hn)]
    rfl

/-- C8 witness: the concrete black seed with index and length -1. -/
theorem negative_index_not_validated_witness :
    get_color colorBlack (-1) = none ∧ get_palette colorBlack (-1) = some [] :=
  negative_index_not_validated colorBlack (-1) (-1) (by norm_num) (by norm_num)

/-- C8 counterexample: `get_palette(seed, -1)` is not rejected with an
error — it returns the empty list. -/
theorem get_palette_negative_returns_empty :
    get_palette colorBlack (-1) = some [] ∧ get_palette colorBlack (-1) ≠ none := by
  constructor
  · rfl
  · intro h
    exact Option.noConfusion (h.symm.trans (rfl : get_palette colorBlack (-1) = some []))

/-- C10: `set_rgb_bytes` (and constructing a Color from a triple) stores
the three components exactly as given — no rounding, clamping, or range
validation — and `get_rgb_bytes` returns them unchanged. -/
theorem set_rgb_bytes_stores_exactly (c : Color) (t : ℚ × ℚ × ℚ) :
    (c.set_rgb_bytes t).get_rgb_bytes = t ∧ (color_from_triple t).get_rgb_bytes = t := by
  constructor <;>
    simp [Color.set_rgb_bytes, Color.get_rgb_bytes, color_from_triple]

/-- C10 witness: a concrete triple far outside the 0-255 byte range is
accepted and returned unchanged. -/
theorem set_rgb_bytes_stores_exactly_witness :
    (colorBlack.set_rgb_bytes (300, -5, 1000)).get_rgb_bytes = (300, -5, 1000) ∧
    (color_from_triple (300, -5, 1000)).get_rgb_bytes = (300, -5, 1000) :=
  set_rgb_bytes_stores_exactly colorBlack (300, -5, 1000)

theorem color_hsv_black : colorBlack.get_hsv = (0, 0, 0) := by
  norm_num [colorBlack, Color.get_hsv, rgb_to_hsv]

theorem color_hsv_white : colorWhite.get_hsv = (0, 0, 1) := by
  norm_num [colorWhite, Color.get_hsv, rgb_to_hsv]

theorem rms_sum_swap (a b w : ℚ × ℚ × ℚ) :
    rms_sum b a (some w) = -rms_sum a b (some w) := by
  simp only [rms_sum]
  ring

/-- C6 (code bug): `color_distance` is not a weighted root-mean-square:
black and white have different HSV triples (their weighted squared
difference sum would be 16/25, giving RMS 4/5 > 0), yet the code returns
0, because `rms` sums the signed weighted differences without squaring
them (here the sum is -4/5, so the non-positive guard fires). -/
theorem color_distance_not_rms :
    colorBlack.get_hsv ≠ colorWhite.get_hsv ∧
    rms_sum colorBlack.get_hsv colorWhite.get_hsv (some (1, 1 / 2, 4 / 5)) = -(4 / 5) ∧
    color_distance colorBlack colorWhite = 0 := by
  refine ⟨?_, ?_, ?_⟩
  · rw [color_hsv_black, color_hsv_white]
    norm_num [Prod.ext_iff]
  · rw [color_hsv_black, color_hsv_white]
    norm_num [rms_sum]
  · simp only [color_distance, rms]
    rw [color_hsv_black, color_hsv_white]
    norm_num [rms_sum]

/-- C9: `color_distance` is not symmetric — concretely, the distance from
white to black differs from the distance from black to white; and in
general, whenever the weighted signed HSV difference sum is strictly
positive in one argument order, the reversed order yields 0. -/
theorem color_distance_not_symmetric :
    color_distance colorWhite colorBlack ≠ color_distance colorBlack colorWhite ∧
    (∀ a b : Color, 0 < rms_sum a.get_hsv b.get_hsv (some (1, 1 / 2, 4 / 5)) →
      color_distance a b ≠ 0 ∧ color_distance b a = 0) := by
  have key : ∀ a b : Color, 0 < rms_sum a.get_hsv b.get_hsv (some (1, 1 / 2, 4 / 5)) →
      color_distance a b ≠ 0 ∧ color_distance b a = 0 := by
    intro a b hpos
    constructor
    · simp only [color_distance, rms]
      rw [if_pos hpos]
      have hpos' : (0 : ℝ) < Real.sqrt ((rms_sum a.get_hsv b.get_hsv (some (1, 1 / 2, 4 / 5)) : ℚ) : ℝ) :=
        Real.sqrt_pos.mpr (by exact_mod_cast hpos)
      exact ne_of_gt hpos'
    · simp only [color_distance, rms]
      rw [if_neg]
      rw [rms_sum_swap]
      linarith
  refine ⟨?_, key⟩
  have hpos : 0 < rms_sum colorWhite.get_hsv colorBlack.get_hsv (some (1, 1 / 2, 4 / 5)) := by
    rw [color_hsv_white, color_hsv_black]
    norm_num [rms_sum]
  obtain ⟨h1, h2⟩ := key colorWhite colorBlack hpos
  rw [h2]
  exact h1

/-- C9 witness: concrete colors discharging the positivity hypothesis. -/
theorem color_distance_not_symmetric_witness :
    color_distance colorWhite colorBlack ≠ 0 ∧
    color_distance colorBlack colorWhite = 0 :=
  color_distance_not_symmetric.2 colorWhite colorBlack
    (by rw [color_hsv_white, color_hsv_black]; norm_num [rms_sum])

theorem hex_toNat_bounds {ch : Char} (h : (hexDigitVal ch).isSome = true) :
    (48 ≤ ch.toNat ∧ ch.toNat ≤ 57) ∨ (97 ≤ ch.toNat ∧ ch.toNat ≤ 102) ∨
    (65 ≤ ch.toNat ∧ ch.toNat ≤ 70) := by
  unfold hexDigitVal at h
  split_ifs at h with h1 h2 h3
  · exact Or.inl h1
  · exact Or.inr (Or.inl h2)
  · exact Or.inr (Or.inr h3)
  · simp at h

theorem hex_char_ne {ch c : Char} (h : (hexDigitVal ch).isSome = true)
    (hc : c.toNat < 43 ∨ c.toNat = 43 ∨ c.toNat = 45 ∨ c.toNat = 88 ∨ c.toNat = 120) :
    ch ≠ c := by
  intro he
  subst he
  have hb := hex_toNat_bounds h
  omega

theorem hex_not_space {ch : Char} (h : (hexDigitVal ch).isSome = true) :
    isPySpace ch = false := by
  have hb := hex_toNat_bounds h
  rcases Bool.eq_false_or_eq_true (isPySpace ch) with ht | hf
  · exfalso
    unfold isPySpace at ht
    have hprop := of_decide_eq_true ht
    rcases hprop with h' | h' | h' | h' | h' | h' <;>
      (subst h'; exact absurd hb (by decide))
  · exact hf

theorem pyIntHex_pair {a b : Char}
    (ha : (hexDigitVal a).isSome = true) (hb : (hexDigitVal b).isSome = true) :
    (pyIntHex [a, b]).isSome = true := by
  have hna := hex_not_space ha
  have h1 : a ≠ '-' := hex_char_ne ha (by right; right; left; rfl)
  have h2 : a ≠ '+' := hex_char_ne ha (by right; left; rfl)
  have h3 : b ≠ 'x' := hex_char_ne hb (by right; right; right; right; rfl)
  have h4 : b ≠ 'X' := hex_char_ne hb (by right; right; right; left; rfl)
  simp only [pyIntHex, List.dropWhile, hna]
  simp only [List.head?_cons, Option.some.injEq, h1, h2, or_self, if_false,
    List.takeWhile, ha, hb]
  simp only [List.drop_succ_cons, List.drop_zero, List.head?_cons, Option.some.injEq,
    h3, h4, or_self, and_false, if_false]
  simp [List.takeWhile, List.dropWhile, ha, hb]

theorem six_hex_slices (t : List Char) (h6 : t.length = 6)
    (hall : t.all (fun ch => (hexDigitVal ch).isSome) = true) :
    (pyIntHex (pySlice t 0 2)).isSome = true ∧
    (pyIntHex (pySlice t 2 4)).isSome = true ∧
    (pyIntHex (pySlice t 4 6)).isSome = true := by
  rcases t with _ | ⟨c1, _ | ⟨c2, _ | ⟨c3, _ | ⟨c4, _ | ⟨c5, _ | ⟨c6, _ | ⟨c7, t⟩⟩⟩⟩⟩⟩⟩ <;>
    simp only [List.length] at h6 <;> try omega
  simp only [List.all_cons, List.all_nil, Bool.and_eq_true, Bool.and_true] at hall
  obtain ⟨ha1, ha2, ha3, ha4, ha5, ha6⟩ := hall
  exact ⟨pyIntHex_pair ha1 ha2, pyIntHex_pair ha3 ha4, pyIntHex_pair ha5 ha6⟩

/-- C7 (amended, success direction): every string matching the pattern
(optional `#`, then exactly six hex digits) constructs successfully. -/
theorem hex_match_constructs (c : Color) (s : List Char)
    (h : matchesHexPattern s = true) :
    (Color.set_html_hex c s).isSome = true := by
  rcases s with _ | ⟨ch, rest⟩
  · simp [matchesHexPattern] at h
  · unfold matchesHexPattern at h
    rw [List.head?_cons] at h
    by_cases hch : ch = '#'
    · subst hch
      rw [if_pos rfl, List.drop_succ_cons, List.drop_zero, Bool.and_eq_true,
        beq_iff_eq] at h
      obtain ⟨p1, p2, p3⟩ := six_hex_slices rest h.1 h.2
      rw [Option.isSome_iff_exists] at p1 p2 p3
      obtain ⟨r, hr⟩ := p1
      obtain ⟨g, hg⟩ := p2
      obtain ⟨b, hbv⟩ := p3
      have hset : Color.set_html_hex c ('#' :: rest) =
          match pyIntHex (pySlice rest 0 2), pyIntHex (pySlice rest 2 4),
              pyIntHex (pySlice rest 4 6) with
          | some r, some g, some b => some { _r := (r : ℚ), _g := (g : ℚ), _b := (b : ℚ) }
          | _, _, _ => none := rfl
      rw [hset, hr, hg, hbv]
      rfl
    · rw [if_neg (by simp [hch]), Bool.and_eq_true, beq_iff_eq] at h
      obtain ⟨p1, p2, p3⟩ := six_hex_slices (ch :: rest) h.1 h.2
      rw [Option.isSome_iff_exists] at p1 p2 p3
      obtain ⟨r, hr⟩ := p1
      obtain ⟨g, hg⟩ := p2
      obtain ⟨b, hbv⟩ := p3
      have hset : Color.set_html_hex c (ch :: rest) =
          match pyIntHex (pySlice (ch :: rest) 0 2), pyIntHex (pySlice (ch :: rest) 2 4),
              pyIntHex (pySlice (ch :: rest) 4 6) with
          | some r, some g, some b => some { _r := (r : ℚ), _g := (g : ℚ), _b := (b : ℚ) }
          | _, _, _ => none := by
        simp only [Color.set_html_hex, if_neg hch]
      rw [hset, hr, hg, hbv]
      rfl

/-- C7 witness: `#EACE8C` matches the pattern and constructs. -/
theorem hex_match_constructs_witness :
    (Color.set_html_hex colorBlack ['#', 'E', 'A', 'C', 'E', '8', 'C']).isSome = true :=
  hex_match_constructs colorBlack ['#', 'E', 'A', 'C', 'E', '8', 'C'] (by decide)

/-- C7 counterexample: `#ABCDE` does not match the pattern (only five
digits), yet construction succeeds — the slice s[4:6] is the single
digit E, and `int("E", 16)` parses. -/
theorem hex_five_digits_construct :
    matchesHexPattern ['#', 'A', 'B', 'C', 'D', 'E'] = false ∧
    Color.set_html_hex colorBlack ['#', 'A', 'B', 'C', 'D', 'E'] =
      some { _r := 171, _g := 205, _b := 14 } := by
  constructor
  · decide
  · decide

end ColorPalette
